import Mathlib

/-!
Shallow embedding of the graph-coloring program (source files `main.py`,
`verices.py`, `aristas.py`, `conbinado.py`).

The vertex-mode backtracking search (`is_safe` / `graph_coloring`) is shared
verbatim by `main.py`, `verices.py` and `conbinado.py`; the edge-mode greedy
search (`is_safe_edge` / `edge_coloring`), the Vizing bound
(`min_colors_vizing`) and the benchmark harness (`measure_execution_time`)
come from `aristas.py` and are duplicated in `conbinado.py`.

Python's mutable `colors` list is threaded explicitly: every search function
returns the pair (returned boolean, final state of the list).  The recursion
of the vertex search on the node index is driven by the remaining count
`fuel = N - node`; `fuel = 0` is exactly the Python termination test
`node == len(graph.vs)`.
-/

namespace Verices

/-- Neighbour test of the igraph graph built by `Graph.Adjacency`: with the
default mode, a vertex `j` is a neighbour of `i` when the adjacency matrix has
a 1 in either direction.  This is also the neighbour relation of the graph
after `to_undirected`, so one definition covers both branches of
`update_graph`. -/
def nbr (M : List (List Int)) (i j : Nat) : Bool :=
  ((M.getD i []).getD j 0 == 1) || ((M.getD j []).getD i 0 == 1)

/-- Embedding of `is_safe(node, color, colors, graph)` from `main.py` and
`verices.py` (also `is_safe_vertex` in `conbinado.py`): a colour is safe when
no neighbour of `node` currently holds it. -/
def is_safe (M : List (List Int)) (node : Nat) (color : Int) (colors : List Int) : Bool :=
  (List.range M.length).all fun j => !(nbr M node j && (colors.getD j 0 == color))

/-- The colour loop of `graph_coloring`: try the colours in `cs` at `node`;
on a safe colour assign it and run `deeper` (the recursive call at
`node + 1`); if that fails, reset the entry to -1 and try the next colour. -/
def tryCs (M : List (List Int)) (node : Nat) (deeper : List Int → Bool × List Int) :
    List Nat → List Int → Bool × List Int
  | [], colors => (false, colors)
  | c :: cs, colors =>
    if is_safe M node (c : Int) colors then
      match deeper (colors.set node (c : Int)) with
      | (true, cols) => (true, cols)
      | (false, cols) => tryCs M node deeper cs (cols.set node (-1))
    else tryCs M node deeper cs colors

/-- Embedding of the backtracking `graph_coloring(graph, num_colors, colors,
node)`, by recursion on `fuel = len(graph.vs) - node`. -/
def graph_coloring_from (M : List (List Int)) (k : Nat) :
    Nat → Nat → List Int → Bool × List Int
  | 0, _, colors => (true, colors)
  | fuel + 1, node, colors =>
    tryCs M node (fun cols => graph_coloring_from M k fuel (node + 1) cols) (List.range k) colors

/-- `graph_coloring(graph, num_colors, colors)` with the default `node = 0`. -/
def graph_coloring (M : List (List Int)) (k : Nat) (colors : List Int) : Bool × List Int :=
  graph_coloring_from M k M.length 0 colors

/-- State of the `colors` array across the trial loop of
`measure_execution_time` in `verices.py`: the array is allocated once and the
search is run on it repeatedly, without re-zeroing between trials. -/
def measure_states (M : List (List Int)) (k : Nat) : Nat → List Int → List Int
  | 0, colors => colors
  | n + 1, colors => measure_states M k n (graph_coloring M k colors).2

end Verices

namespace Aristas

/-- Embedding of `is_safe_edge(edge, color, colors, graph)`: the colour is
unsafe when any edge of the whole graph that touches an endpoint of the given
edge `(u, v)` currently holds it (the scan includes the edge itself). -/
def is_safe_edge (es : List (Nat × Nat)) (u v : Nat) (color : Int) (colors : List Int) : Bool :=
  (List.range es.length).all fun f =>
    !(((es.getD f (0, 0)).1 == u || (es.getD f (0, 0)).2 == u ||
       (es.getD f (0, 0)).1 == v || (es.getD f (0, 0)).2 == v) &&
      (colors.getD f 0 == color))

/-- The inner `for color in range(num_colors)` loop of `edge_coloring`: the
first safe colour for the edge with endpoints `(u, v)`, if any. -/
def firstSafeColor (es : List (Nat × Nat)) (u v : Nat) (colors : List Int) :
    List Nat → Option Nat
  | [] => none
  | c :: cs =>
    if is_safe_edge es u v (c : Int) colors then some c
    else firstSafeColor es u v colors cs

/-- Embedding of `edge_coloring(graph, num_colors, colors, edge_order)`: visit
the edges in `order`; greedily assign the first safe colour; return `False` at
the first edge with no safe colour, leaving the array as it is (there is no
backtracking). -/
def edge_coloring (es : List (Nat × Nat)) (k : Nat) :
    List Int → List Nat → Bool × List Int
  | colors, [] => (true, colors)
  | colors, e :: rest =>
    match firstSafeColor es (es.getD e (0, 0)).1 (es.getD e (0, 0)).2 colors (List.range k) with
    | some c => edge_coloring es k (colors.set e (c : Int)) rest
    | none => (false, colors)

/-- Embedding of `graph_coloring(graph, num_colors, colors)` from
`aristas.py`: run `edge_coloring` with the identity edge order
`list(range(len(graph.es)))`. -/
def graph_coloring (es : List (Nat × Nat)) (k : Nat) (colors : List Int) : Bool × List Int :=
  edge_coloring es k colors (List.range es.length)

/-- Degree of a vertex in the igraph sense (mode ALL, loops counted twice):
the number of edge endpoints equal to `v`. -/
def degree (es : List (Nat × Nat)) (v : Nat) : Nat :=
  (es.filter fun p => p.1 == v).length + (es.filter fun p => p.2 == v).length

/-- Embedding of `min_colors_vizing(graph)`: `max(graph.degree()) + 1`. -/
def min_colors_vizing (N : Nat) (es : List (Nat × Nat)) : Nat :=
  ((List.range N).map (degree es)).foldl Nat.max 0 + 1

/-- The colour palette of `aristas.py` and `conbinado.py`. -/
def palette : List String :=
  ["red", "green", "blue", "yellow", "purple", "orange", "cyan", "magenta", "brown", "gray"]

/-- The colour budget computed by `update_graph` in `aristas.py` (and
`color_edges` in `conbinado.py`): `max(min_colors_vizing(g), len(palette))`. -/
def update_graph_num_colors (N : Nat) (es : List (Nat × Nat)) : Nat :=
  Nat.max (min_colors_vizing N es) palette.length

/-- State of the `colors` array across the trial loop of
`measure_execution_time` in `aristas.py`: the array is allocated once before
the loop and the identity-order search `graph_coloring` is run on it
repeatedly, without re-zeroing between trials. -/
def measure_states (es : List (Nat × Nat)) (k : Nat) : Nat → List Int → List Int
  | 0, colors => colors
  | n + 1, colors => measure_states es k n (graph_coloring es k colors).2

/-- The array trajectory of `measure_execution_time(graph, num_colors)`:
1000 trials starting from the single all-(-1) array allocated before the
loop. -/
def measure_execution_time_states (es : List (Nat × Nat)) (k : Nat) : List Int :=
  measure_states es k 1000 (List.replicate es.length (-1))

end Aristas

/-- Spec-side checker for the literal vertex-mode property of the claim:
for every edge (i, j) of the graph, including self-loops, the colours of the
two endpoints differ. -/
def properVertexColoringAll (M : List (List Int)) (colors : List Int) : Bool :=
  (List.range M.length).all fun i => (List.range M.length).all fun j =>
    !(Verices.nbr M i j && (colors.getD i 0 == colors.getD j 0))

/-- Spec-side checker for the literal directed-pair property of the claim:
for every ordered pair (i, j) with a 1 entry in the matrix, including the
diagonal, the colours of i and j differ. -/
def properPairs (M : List (List Int)) (colors : List Int) : Bool :=
  (List.range M.length).all fun i => (List.range M.length).all fun j =>
    !(((M.getD i []).getD j 0 == 1) && (colors.getD i 0 == colors.getD j 0))

/-- Two edge indices share an endpoint vertex; written with the endpoints of
`e2` compared against the endpoints of `e1` exactly as in the scan of
`is_safe_edge`. -/
def sharesEndpoint (es : List (Nat × Nat)) (e1 e2 : Nat) : Bool :=
  (es.getD e2 (0, 0)).1 == (es.getD e1 (0, 0)).1 ||
  (es.getD e2 (0, 0)).2 == (es.getD e1 (0, 0)).1 ||
  (es.getD e2 (0, 0)).1 == (es.getD e1 (0, 0)).2 ||
  (es.getD e2 (0, 0)).2 == (es.getD e1 (0, 0)).2

/-- Spec-side checker for a proper edge colouring: distinct edges sharing an
endpoint have distinct colours. -/
def properEdgeColoring (es : List (Nat × Nat)) (colors : List Int) : Bool :=
  (List.range es.length).all fun e1 => (List.range es.length).all fun e2 =>
    !((!(e1 == e2)) && sharesEndpoint es e1 e2 && (colors.getD e1 0 == colors.getD e2 0))

/-- Spec-side checker: every entry of the assignment is a colour id in
[0, k). -/
def withinBudget (k : Nat) (colors : List Int) : Bool :=
  colors.all fun c => decide (0 ≤ c) && decide (c < (k : Int))

/-- The error message raised by `update_matrix` for a value outside 0/1. -/
def errMsg : String := "Los valores deben ser 0 o 1."

/-- The cell scan of `update_matrix`: visit the given cells in order; stop
with the fixed error message at the first value outside 0/1. -/
def checkCells (m : List (List Int)) : List (Nat × Nat) → Except String Unit
  | [] => Except.ok ()
  | ij :: rest =>
    if ((m.getD ij.1 []).getD ij.2 0 == 0) || ((m.getD ij.1 []).getD ij.2 0 == 1) then
      checkCells m rest
    else Except.error errMsg

/-- The cell list scanned by `update_matrix`: row-major over
`range(len(adj_matrix)) x range(len(adj_matrix))`. -/
def allCells (n : Nat) : List (Nat × Nat) :=
  ((List.range n).map fun i => (List.range n).map fun j => (i, j)).flatten

/-- Embedding of the validation performed by `update_matrix` (identical in
all four source files): scan the n-by-n leading square of the grid, where n
is the number of rows; accept the matrix unchanged when every scanned value
is 0 or 1, otherwise fail with the fixed message. -/
def update_matrix (m : List (List Int)) : Except String (List (List Int)) :=
  match checkCells m (allCells m.length) with
  | Except.ok _ => Except.ok m
  | Except.error e => Except.error e

/-- The concrete simple graph used to refute completeness of the greedy edge
search at the Vizing bound: vertices 0..9; vertex 0 is adjacent to 2, 3, 1;
vertex 1 to 4, 5; vertex 4 to 6, 7; vertex 5 to 8, 9.  Maximum degree 3. -/
def esC2 : List (Nat × Nat) :=
  [(0, 2), (0, 3), (0, 1), (1, 4), (1, 5), (4, 6), (4, 7), (5, 8), (5, 9)]

/-- A visitation order (a permutation of the nine edge indices) on which the
greedy edge search fails with 4 = max_degree + 1 colours. -/
def orderC2 : List Nat := [0, 1, 5, 6, 3, 7, 8, 4, 2]

/-- An explicit proper edge colouring of `esC2` with colours below 4,
witnessing that the instance is feasible at the Vizing bound. -/
def goodC2 : List Int := [1, 2, 0, 1, 2, 0, 2, 0, 1]

/-! Helper lemmas about list access, used to reason about the threaded
`colors` array. -/

lemma getD_set_self : ∀ (l : List Int) (n : Nat) (v : Int), n < l.length →
    (l.set n v).getD n 0 = v := by
  intro l
  induction l with
  | nil => intro n v h; simp at h
  | cons a t ih =>
    intro n v h
    cases n with
    | zero => rfl
    | succ m =>
      have hm : m < t.length := by simp at h; omega
      simpa [List.set, List.getD_cons_succ] using ih m v hm

lemma getD_set_ne : ∀ (l : List Int) (n m : Nat) (v : Int), n ≠ m →
    (l.set n v).getD m 0 = l.getD m 0 := by
  intro l
  induction l with
  | nil => intro n m v _; rfl
  | cons a t ih =>
    intro n m v hnm
    cases n with
    | zero =>
      cases m with
      | zero => exact absurd rfl hnm
      | succ j => rfl
    | succ i =>
      cases m with
      | zero => rfl
      | succ j =>
        have hij : i ≠ j := fun h => hnm (by rw [h])
        simpa [List.set, List.getD_cons_succ] using ih i j v hij

lemma set_sentinel : ∀ (l : List Int) (n : Nat), l.getD n 0 = -1 →
    l.set n (-1) = l := by
  intro l
  induction l with
  | nil => intro n _; rfl
  | cons a t ih =>
    intro n h
    cases n with
    | zero =>
      have : a = -1 := by simpa [List.getD_cons_zero] using h
      simp [List.set, this]
    | succ m =>
      have : t.getD m 0 = -1 := by simpa [List.getD_cons_succ] using h
      simp [List.set, ih m this]

lemma getD_replicate : ∀ (n j : Nat), j < n →
    (List.replicate n (-1 : Int)).getD j 0 = -1 := by
  intro n
  induction n with
  | zero => intro j h; omega
  | succ m ih =>
    intro j h
    cases j with
    | zero => rfl
    | succ i => simpa [List.replicate, List.getD_cons_succ] using ih i (by omega)

lemma getD_eq_getElem : ∀ (l : List Int) (i : Nat) (h : i < l.length),
    l.getD i 0 = l[i] := by
  intro l
  induction l with
  | nil => intro i h; simp at h
  | cons a t ih =>
    intro i h
    cases i with
    | zero => rfl
    | succ m =>
      have hm : m < t.length := by simp at h; omega
      simpa [List.getD_cons_succ] using ih m hm

/-! Helper lemmas bridging the boolean safety checks and their logical
readings. -/

lemma bnot_and_beq (a : Bool) (x y : Int) :
    (!(a && (x == y))) = true ↔ (a = true → x ≠ y) := by
  cases a <;> simp

lemma is_safe_iff (M : List (List Int)) (node : Nat) (color : Int) (colors : List Int) :
    Verices.is_safe M node color colors = true ↔
      ∀ j, j < M.length → Verices.nbr M node j = true → colors.getD j 0 ≠ color := by
  unfold Verices.is_safe
  rw [List.all_eq_true]
  constructor
  · intro h j hj
    exact (bnot_and_beq _ _ _).mp (h j (List.mem_range.mpr hj))
  · intro h j hjmem
    exact (bnot_and_beq _ _ _).mpr (h j (List.mem_range.mp hjmem))

lemma nbr_symm (M : List (List Int)) (i j : Nat) (h : Verices.nbr M i j = true) :
    Verices.nbr M j i = true := by
  simp only [Verices.nbr, Bool.or_eq_true] at h ⊢
  tauto

lemma sharesEndpoint_symm (es : List (Nat × Nat)) (e1 e2 : Nat)
    (h : sharesEndpoint es e1 e2 = true) : sharesEndpoint es e2 e1 = true := by
  simp only [sharesEndpoint, Bool.or_eq_true, beq_iff_eq] at h ⊢
  tauto

lemma is_safe_edge_iff (es : List (Nat × Nat)) (e u v : Nat) (color : Int)
    (colors : List Int) (hq : es.getD e (0, 0) = (u, v)) :
    Aristas.is_safe_edge es u v color colors = true ↔
      ∀ f, f < es.length → sharesEndpoint es e f = true → colors.getD f 0 ≠ color := by
  unfold Aristas.is_safe_edge
  rw [List.all_eq_true]
  have hcond : ∀ f, sharesEndpoint es e f =
      ((es.getD f (0, 0)).1 == u || (es.getD f (0, 0)).2 == u ||
       (es.getD f (0, 0)).1 == v || (es.getD f (0, 0)).2 == v) := by
    intro f
    simp only [sharesEndpoint, hq]
  constructor
  · intro h f hf hs
    have h2 := (bnot_and_beq _ _ _).mp (h f (List.mem_range.mpr hf))
    exact h2 (by rw [← hcond]; exact hs)
  · intro h f hfmem
    refine (bnot_and_beq _ _ _).mpr ?_
    intro hc
    exact h f (List.mem_range.mp hfmem) (by rw [hcond]; exact hc)

lemma set_oob : ∀ (l : List Int) (n : Nat) (v : Int), l.length ≤ n → l.set n v = l := by
  intro l
  induction l with
  | nil => intro n v _; rfl
  | cons a t ih =>
    intro n v h
    cases n with
    | zero => simp at h
    | succ m =>
      have : t.length ≤ m := by simp at h; omega
      simp [List.set, ih m v this]

lemma set_neg_one (l : List Int) (n : Nat) (h : n < l.length → l.getD n 0 = -1) :
    l.set n (-1) = l := by
  by_cases hlt : n < l.length
  · exact set_sentinel l n (h hlt)
  · exact set_oob l n (-1) (by omega)

/-! Backtracking restoration: whenever the vertex search fails on an array
whose entries from `node` on are all -1, the array is returned unchanged. -/

lemma tryCs_restore (M : List (List Int)) (node : Nat)
    (deeper : List Int → Bool × List Int)
    (hd : ∀ c2, (∀ j, node + 1 ≤ j → j < c2.length → c2.getD j 0 = -1) →
      (deeper c2).1 = false → (deeper c2).2 = c2) :
    ∀ (cs : List Nat) (colors : List Int),
      (∀ j, node ≤ j → j < colors.length → colors.getD j 0 = -1) →
      (Verices.tryCs M node deeper cs colors).1 = false →
      (Verices.tryCs M node deeper cs colors).2 = colors := by
  intro cs
  induction cs with
  | nil => intro colors _ _; rfl
  | cons c cs ih =>
    intro colors hun hf
    by_cases hs : Verices.is_safe M node (c : Int) colors = true
    · rcases hdeep : deeper (colors.set node (c : Int)) with ⟨b, cols⟩
      cases b with
      | true =>
        have hstep : Verices.tryCs M node deeper (c :: cs) colors = (true, cols) := by
          simp [Verices.tryCs, hs, hdeep]
        rw [hstep] at hf
        simp at hf
      | false =>
        have hsub : ∀ j, node + 1 ≤ j → j < (colors.set node (c : Int)).length →
            (colors.set node (c : Int)).getD j 0 = -1 := by
          intro j hj hlen2
          rw [getD_set_ne _ _ _ _ (by omega)]
          exact hun j (by omega) (by simpa using hlen2)
        have hcols : cols = colors.set node (c : Int) := by
          have h1 : (deeper (colors.set node (c : Int))).1 = false := by rw [hdeep]
          have h2 := hd (colors.set node (c : Int)) hsub h1
          rw [hdeep] at h2
          exact h2
        have hback : cols.set node (-1) = colors := by
          rw [hcols, List.set_set]
          exact set_neg_one colors node (fun hlt => hun node (le_refl node) hlt)
        have hstep : Verices.tryCs M node deeper (c :: cs) colors =
            Verices.tryCs M node deeper cs colors := by
          simp [Verices.tryCs, hs, hdeep, hback]
        rw [hstep] at hf ⊢
        exact ih colors hun hf
    · have hstep : Verices.tryCs M node deeper (c :: cs) colors =
          Verices.tryCs M node deeper cs colors := by
        simp [Verices.tryCs, hs]
      rw [hstep] at hf ⊢
      exact ih colors hun hf

lemma gcf_restore (M : List (List Int)) (k : Nat) :
    ∀ (fuel node : Nat) (colors : List Int),
      (∀ j, node ≤ j → j < colors.length → colors.getD j 0 = -1) →
      (Verices.graph_coloring_from M k fuel node colors).1 = false →
      (Verices.graph_coloring_from M k fuel node colors).2 = colors := by
  intro fuel
  induction fuel with
  | zero =>
    intro node colors _ hf
    simp [Verices.graph_coloring_from] at hf
  | succ f ih =>
    intro node colors hun hf
    have hd : ∀ c2, (∀ j, node + 1 ≤ j → j < c2.length → c2.getD j 0 = -1) →
        (Verices.graph_coloring_from M k f (node + 1) c2).1 = false →
        (Verices.graph_coloring_from M k f (node + 1) c2).2 = c2 :=
      fun c2 h1 h2 => ih (node + 1) c2 h1 h2
    have hmain := tryCs_restore M node
      (fun cols => Verices.graph_coloring_from M k f (node + 1) cols) hd
      (List.range k) colors hun
      (by simpa [Verices.graph_coloring_from] using hf)
    simpa [Verices.graph_coloring_from] using hmain

/-! Soundness of a successful vertex search: starting from an array whose
entries from `node` on are unassigned, a `true` result leaves the prefix
untouched, fills every later entry with a colour below the budget, and makes
every adjacent pair of distinct vertices (one of them at or after `node`)
differently coloured. -/

lemma tryCs_sound (M : List (List Int)) (k : Nat) (node : Nat)
    (deeper : List Int → Bool × List Int)
    (hnode : node < M.length)
    (hrest : ∀ c2, c2.length = M.length →
      (∀ j, node + 1 ≤ j → j < c2.length → c2.getD j 0 = -1) →
      (deeper c2).1 = true →
      ((∀ j, j < node + 1 → (deeper c2).2.getD j 0 = c2.getD j 0) ∧
       (∀ i, node + 1 ≤ i → i < M.length →
         ∃ c : Nat, c < k ∧ (deeper c2).2.getD i 0 = (c : Int)) ∧
       (∀ i, node + 1 ≤ i → i < M.length → ∀ j, j < M.length →
         Verices.nbr M i j = true → j ≠ i →
         (deeper c2).2.getD j 0 ≠ (deeper c2).2.getD i 0)))
    (hdres : ∀ c2, (∀ j, node + 1 ≤ j → j < c2.length → c2.getD j 0 = -1) →
      (deeper c2).1 = false → (deeper c2).2 = c2) :
    ∀ (cs : List Nat) (colors : List Int),
      (∀ c ∈ cs, c < k) →
      colors.length = M.length →
      (∀ j, node ≤ j → j < colors.length → colors.getD j 0 = -1) →
      (Verices.tryCs M node deeper cs colors).1 = true →
      ((∀ j, j < node → (Verices.tryCs M node deeper cs colors).2.getD j 0 = colors.getD j 0) ∧
       (∀ i, node ≤ i → i < M.length →
         ∃ c : Nat, c < k ∧ (Verices.tryCs M node deeper cs colors).2.getD i 0 = (c : Int)) ∧
       (∀ i, node ≤ i → i < M.length → ∀ j, j < M.length →
         Verices.nbr M i j = true → j ≠ i →
         (Verices.tryCs M node deeper cs colors).2.getD j 0 ≠
           (Verices.tryCs M node deeper cs colors).2.getD i 0)) := by
  intro cs
  induction cs with
  | nil =>
    intro colors _ _ _ ht
    simp [Verices.tryCs] at ht
  | cons c cs ih =>
    intro colors hcs hlen hun ht
    by_cases hs : Verices.is_safe M node (c : Int) colors = true
    · rcases hdeep : deeper (colors.set node (c : Int)) with ⟨b, cols⟩
      cases b with
      | false =>
        have hsub : ∀ j, node + 1 ≤ j → j < (colors.set node (c : Int)).length →
            (colors.set node (c : Int)).getD j 0 = -1 := by
          intro j hj hlen2
          rw [getD_set_ne _ _ _ _ (by omega)]
          exact hun j (by omega) (by simpa using hlen2)
        have hcols : cols = colors.set node (c : Int) := by
          have h1 : (deeper (colors.set node (c : Int))).1 = false := by rw [hdeep]
          have h2 := hdres (colors.set node (c : Int)) hsub h1
          rw [hdeep] at h2
          exact h2
        have hback : cols.set node (-1) = colors := by
          rw [hcols, List.set_set]
          exact set_neg_one colors node (fun hlt => hun node (le_refl node) hlt)
        have hstep : Verices.tryCs M node deeper (c :: cs) colors =
            Verices.tryCs M node deeper cs colors := by
          simp [Verices.tryCs, hs, hdeep, hback]
        rw [hstep] at ht ⊢
        exact ih colors (fun x hx => hcs x (List.mem_cons_of_mem c hx)) hlen hun ht
      | true =>
        have hstep : Verices.tryCs M node deeper (c :: cs) colors = (true, cols) := by
          simp [Verices.tryCs, hs, hdeep]
        have hlen2 : (colors.set node (c : Int)).length = M.length := by simpa using hlen
        have hsub : ∀ j, node + 1 ≤ j → j < (colors.set node (c : Int)).length →
            (colors.set node (c : Int)).getD j 0 = -1 := by
          intro j hj hlen3
          rw [getD_set_ne _ _ _ _ (by omega)]
          exact hun j (by omega) (by simpa using hlen3)
        have h1 : (deeper (colors.set node (c : Int))).1 = true := by rw [hdeep]
        obtain ⟨ha, hb, hc2⟩ := hrest (colors.set node (c : Int)) hlen2 hsub h1
        rw [hdeep] at ha hb hc2
        have hnodelt : node < colors.length := by omega
        have hnodecol : cols.getD node 0 = (c : Int) := by
          rw [ha node (by omega)]
          exact getD_set_self colors node (c : Int) hnodelt
        have hpre : ∀ j, j < node → cols.getD j 0 = colors.getD j 0 := by
          intro j hj
          rw [ha j (by omega)]
          exact getD_set_ne colors node j (c : Int) (by omega)
        rw [hstep]
        refine ⟨hpre, ?_, ?_⟩
        · intro i hi1 hi2
          rcases Nat.eq_or_lt_of_le hi1 with heq | hlt
        -- i = node or node < i
          · exact ⟨c, hcs c (List.mem_cons_self c cs), by rw [heq] at hnodecol; exact hnodecol⟩
          · exact hb i (by omega) hi2
        · intro i hi1 hi2 j hj hnbr hji
          rcases Nat.eq_or_lt_of_le hi1 with heq | hlt
          · -- the current node itself
            subst heq
            rcases Nat.lt_or_ge j (node + 1) with hjlt | hjge
            · -- j is strictly before node (j = node is excluded by hji)
              have hjnode : j < node := by omega
              rw [hpre j hjnode, hnodecol]
              have hsafe := (is_safe_iff M node (c : Int) colors).mp hs j hj hnbr
              simpa using hsafe
            · -- j is at or after node + 1
              have hne : cols.getD node 0 ≠ cols.getD j 0 :=
                hc2 j hjge hj node hnode (nbr_symm M node j hnbr) (fun h => hji h.symm)
              exact fun h => hne h.symm
          · exact hc2 i (by omega) hi2 j hj hnbr hji
    · have hstep : Verices.tryCs M node deeper (c :: cs) colors =
          Verices.tryCs M node deeper cs colors := by
        simp [Verices.tryCs, hs]
      rw [hstep] at ht ⊢
      exact ih colors (fun x hx => hcs x (List.mem_cons_of_mem c hx)) hlen hun ht

lemma gcf_sound (M : List (List Int)) (k : Nat) :
    ∀ (fuel node : Nat) (colors : List Int),
      node + fuel = M.length →
      colors.length = M.length →
      (∀ j, node ≤ j → j < colors.length → colors.getD j 0 = -1) →
      (Verices.graph_coloring_from M k fuel node colors).1 = true →
      ((∀ j, j < node →
         (Verices.graph_coloring_from M k fuel node colors).2.getD j 0 = colors.getD j 0) ∧
       (∀ i, node ≤ i → i < M.length →
         ∃ c : Nat, c < k ∧
           (Verices.graph_coloring_from M k fuel node colors).2.getD i 0 = (c : Int)) ∧
       (∀ i, node ≤ i → i < M.length → ∀ j, j < M.length →
         Verices.nbr M i j = true → j ≠ i →
         (Verices.graph_coloring_from M k fuel node colors).2.getD j 0 ≠
           (Verices.graph_coloring_from M k fuel node colors).2.getD i 0)) := by
  intro fuel
  induction fuel with
  | zero =>
    intro node colors hfuel _ _ _
    refine ⟨fun j _ => rfl, ?_, ?_⟩
    · intro i hi1 hi2
      exact absurd hi2 (by omega)
    · intro i hi1 hi2
      exact absurd hi2 (by omega)
  | succ f ih =>
    intro node colors hfuel hlen hun ht
    have hnode : node < M.length := by omega
    have hrest : ∀ c2, c2.length = M.length →
        (∀ j, node + 1 ≤ j → j < c2.length → c2.getD j 0 = -1) →
        (Verices.graph_coloring_from M k f (node + 1) c2).1 = true →
        ((∀ j, j < node + 1 →
           (Verices.graph_coloring_from M k f (node + 1) c2).2.getD j 0 = c2.getD j 0) ∧
         (∀ i, node + 1 ≤ i → i < M.length →
           ∃ c : Nat, c < k ∧
             (Verices.graph_coloring_from M k f (node + 1) c2).2.getD i 0 = (c : Int)) ∧
         (∀ i, node + 1 ≤ i → i < M.length → ∀ j, j < M.length →
           Verices.nbr M i j = true → j ≠ i →
           (Verices.graph_coloring_from M k f (node + 1) c2).2.getD j 0 ≠
             (Verices.graph_coloring_from M k f (node + 1) c2).2.getD i 0)) :=
      fun c2 h1 h2 h3 => ih (node + 1) c2 (by omega) h1 h2 h3
    have hdres : ∀ c2, (∀ j, node + 1 ≤ j → j < c2.length → c2.getD j 0 = -1) →
        (Verices.graph_coloring_from M k f (node + 1) c2).1 = false →
        (Verices.graph_coloring_from M k f (node + 1) c2).2 = c2 :=
      fun c2 h1 h2 => gcf_restore M k f (node + 1) c2 h1 h2
    have hmain := tryCs_sound M k node
      (fun cols => Verices.graph_coloring_from M k f (node + 1) cols) hnode hrest hdres
      (List.range k) colors (fun x hx => List.mem_range.mp hx) hlen hun
      (by simpa [Verices.graph_coloring_from] using ht)
    simpa [Verices.graph_coloring_from] using hmain

/-! Invariants of the greedy edge search. -/

lemma firstSafeColor_spec (es : List (Nat × Nat)) (u v : Nat) :
    ∀ (cs : List Nat) (colors : List Int) (c : Nat),
      Aristas.firstSafeColor es u v colors cs = some c →
      c ∈ cs ∧ Aristas.is_safe_edge es u v (c : Int) colors = true := by
  intro cs
  induction cs with
  | nil => intro colors c h; simp [Aristas.firstSafeColor] at h
  | cons c0 cs ih =>
    intro colors c h
    by_cases hs : Aristas.is_safe_edge es u v (c0 : Int) colors = true
    · have hh : Aristas.firstSafeColor es u v colors (c0 :: cs) = some c0 := by
        simp [Aristas.firstSafeColor, hs]
      rw [hh] at h
      injection h with h2
      subst h2
      exact ⟨List.mem_cons_self c0 cs, hs⟩
    · have hh : Aristas.firstSafeColor es u v colors (c0 :: cs) =
          Aristas.firstSafeColor es u v colors cs := by
        simp [Aristas.firstSafeColor, hs]
      rw [hh] at h
      obtain ⟨hm, hsf⟩ := ih colors c h
      exact ⟨List.mem_cons_of_mem c0 hm, hsf⟩

lemma edge_coloring_length (es : List (Nat × Nat)) (k : Nat) :
    ∀ (order : List Nat) (colors : List Int),
      (Aristas.edge_coloring es k colors order).2.length = colors.length := by
  intro order
  induction order with
  | nil => intro colors; rfl
  | cons e rest ih =>
    intro colors
    cases hfc : Aristas.firstSafeColor es (es.getD e (0, 0)).1 (es.getD e (0, 0)).2 colors
        (List.range k) with
    | none =>
      have hstep : Aristas.edge_coloring es k colors (e :: rest) = (false, colors) := by
        simp only [Aristas.edge_coloring]
        rw [hfc]
      rw [hstep]
    | some c =>
      have hstep : Aristas.edge_coloring es k colors (e :: rest) =
          Aristas.edge_coloring es k (colors.set e (c : Int)) rest := by
        simp only [Aristas.edge_coloring]
        rw [hfc]
      rw [hstep, ih]
      simp

lemma edge_coloring_sound (es : List (Nat × Nat)) (k : Nat) :
    ∀ (order : List Nat) (colors : List Int),
      colors.length = es.length →
      order.Nodup →
      (∀ e ∈ order, e < es.length) →
      (∀ e ∈ order, colors.getD e 0 = -1) →
      (∀ e1 e2, e1 < es.length → e2 < es.length → e1 ≠ e2 →
        sharesEndpoint es e1 e2 = true → colors.getD e1 0 ≠ -1 → colors.getD e2 0 ≠ -1 →
        colors.getD e1 0 ≠ colors.getD e2 0) →
      (∀ e, e < es.length → colors.getD e 0 ≠ -1 →
        ∃ c : Nat, c < k ∧ colors.getD e 0 = (c : Int)) →
      (Aristas.edge_coloring es k colors order).1 = true →
      ((∀ e, colors.getD e 0 ≠ -1 →
         (Aristas.edge_coloring es k colors order).2.getD e 0 = colors.getD e 0) ∧
       (∀ e ∈ order, (Aristas.edge_coloring es k colors order).2.getD e 0 ≠ -1) ∧
       (∀ e1 e2, e1 < es.length → e2 < es.length → e1 ≠ e2 →
         sharesEndpoint es e1 e2 = true →
         (Aristas.edge_coloring es k colors order).2.getD e1 0 ≠ -1 →
         (Aristas.edge_coloring es k colors order).2.getD e2 0 ≠ -1 →
         (Aristas.edge_coloring es k colors order).2.getD e1 0 ≠
           (Aristas.edge_coloring es k colors order).2.getD e2 0) ∧
       (∀ e, e < es.length → (Aristas.edge_coloring es k colors order).2.getD e 0 ≠ -1 →
         ∃ c : Nat, c < k ∧ (Aristas.edge_coloring es k colors order).2.getD e 0 = (c : Int))) := by
  intro order
  induction order with
  | nil =>
    intro colors _ _ _ _ hpp hrng _
    exact ⟨fun e h => rfl, fun e he => absurd he (List.not_mem_nil e), hpp, hrng⟩
  | cons e rest ih =>
    intro colors hlen hnodup hbound hinit hpp hrng ht
    have he_lt : e < es.length := hbound e (List.mem_cons_self e rest)
    have he_init : colors.getD e 0 = -1 := hinit e (List.mem_cons_self e rest)
    cases hfc : Aristas.firstSafeColor es (es.getD e (0, 0)).1 (es.getD e (0, 0)).2 colors
        (List.range k) with
    | none =>
      have hstep : Aristas.edge_coloring es k colors (e :: rest) = (false, colors) := by
        simp only [Aristas.edge_coloring]
        rw [hfc]
      rw [hstep] at ht
      simp at ht
    | some c =>
      obtain ⟨hcmem, hcsafe⟩ := firstSafeColor_spec es _ _ (List.range k) colors c hfc
      have hck : c < k := List.mem_range.mp hcmem
      have hsafe2 := (is_safe_edge_iff es e _ _ (c : Int) colors rfl).mp hcsafe
      have hstep : Aristas.edge_coloring es k colors (e :: rest) =
          Aristas.edge_coloring es k (colors.set e (c : Int)) rest := by
        simp only [Aristas.edge_coloring]
        rw [hfc]
      have hcne : ¬((c : Int) = -1) := by omega
      have hlen2 : (colors.set e (c : Int)).length = es.length := by simpa using hlen
      have hge : (colors.set e (c : Int)).getD e 0 = (c : Int) :=
        getD_set_self _ _ _ (by omega)
      obtain ⟨he_notin, hnodup_rest⟩ := List.nodup_cons.mp hnodup
      have hinit2 : ∀ f ∈ rest, (colors.set e (c : Int)).getD f 0 = -1 := by
        intro f hf
        rw [getD_set_ne _ _ _ _ (by intro h; exact he_notin (by rw [h]; exact hf))]
        exact hinit f (List.mem_cons_of_mem e hf)
      have hpp2 : ∀ e1 e2, e1 < es.length → e2 < es.length → e1 ≠ e2 →
          sharesEndpoint es e1 e2 = true →
          (colors.set e (c : Int)).getD e1 0 ≠ -1 →
          (colors.set e (c : Int)).getD e2 0 ≠ -1 →
          (colors.set e (c : Int)).getD e1 0 ≠ (colors.set e (c : Int)).getD e2 0 := by
        intro e1 e2 h1 h2 hne hsh ha1 ha2
        by_cases he1 : e1 = e
        · subst he1
          have hne2 : e1 ≠ e2 := hne
          rw [hge, getD_set_ne _ _ _ _ hne2]
          have hblock := hsafe2 e2 h2 hsh
          exact fun h => hblock h.symm
        · by_cases he2 : e2 = e
          · subst he2
            rw [getD_set_ne _ _ _ _ (fun h => he1 h.symm), hge]
            exact hsafe2 e1 h1 (sharesEndpoint_symm es e1 e2 hsh)
          · rw [getD_set_ne _ _ _ _ (fun h => he1 h.symm),
              getD_set_ne _ _ _ _ (fun h => he2 h.symm)]
            rw [getD_set_ne _ _ _ _ (fun h => he1 h.symm)] at ha1
            rw [getD_set_ne _ _ _ _ (fun h => he2 h.symm)] at ha2
            exact hpp e1 e2 h1 h2 hne hsh ha1 ha2
      have hrng2 : ∀ f, f < es.length → (colors.set e (c : Int)).getD f 0 ≠ -1 →
          ∃ d : Nat, d < k ∧ (colors.set e (c : Int)).getD f 0 = (d : Int) := by
        intro f hf ha
        by_cases hfe : f = e
        · subst hfe
          exact ⟨c, hck, hge⟩
        · rw [getD_set_ne _ _ _ _ (fun h => hfe h.symm)] at ha ⊢
          exact hrng f hf ha
      rw [hstep] at ht ⊢
      obtain ⟨ihpres, ihassigned, ihpp, ihrng⟩ := ih (colors.set e (c : Int)) hlen2
        hnodup_rest (fun f hf => hbound f (List.mem_cons_of_mem e hf)) hinit2 hpp2 hrng2 ht
      refine ⟨?_, ?_, ihpp, ihrng⟩
      · intro f hfa
        have hfe : f ≠ e := by
          intro h
          rw [h, he_init] at hfa
          exact hfa rfl
        have hsame : (colors.set e (c : Int)).getD f 0 = colors.getD f 0 :=
          getD_set_ne _ _ _ _ (fun h => hfe h.symm)
        rw [ihpres f (by rw [hsame]; exact hfa), hsame]
      · intro f hf
        rcases List.mem_cons.mp hf with rfl | hfr
        · have hc1 : (colors.set f (c : Int)).getD f 0 ≠ -1 := by
            rw [hge]
            exact hcne
          rw [ihpres f hc1, hge]
          exact hcne
        · exact ihassigned f hfr

/-! Bridges between the boolean checkers and their logical readings. -/

lemma bnot_chain (a b : Bool) (x y : Int) :
    (!((!a) && b && (x == y))) = true ↔ (a = false → b = true → x ≠ y) := by
  cases a <;> cases b <;> simp

lemma properEdgeColoring_iff (es : List (Nat × Nat)) (colors : List Int) :
    properEdgeColoring es colors = true ↔
      ∀ e1 e2, e1 < es.length → e2 < es.length → e1 ≠ e2 →
        sharesEndpoint es e1 e2 = true → colors.getD e1 0 ≠ colors.getD e2 0 := by
  unfold properEdgeColoring
  rw [List.all_eq_true]
  constructor
  · intro h e1 e2 h1 h2 hne hsh
    have h3 := h e1 (List.mem_range.mpr h1)
    rw [List.all_eq_true] at h3
    have h4 := h3 e2 (List.mem_range.mpr h2)
    exact (bnot_chain _ _ _ _).mp h4 (beq_eq_false_iff_ne.mpr hne) hsh
  · intro h e1 he1
    rw [List.all_eq_true]
    intro e2 he2
    refine (bnot_chain _ _ _ _).mpr ?_
    intro hne hsh
    exact h e1 e2 (List.mem_range.mp he1) (List.mem_range.mp he2)
      (beq_eq_false_iff_ne.mp hne) hsh

lemma withinBudget_iff (k : Nat) (colors : List Int) :
    withinBudget k colors = true ↔ ∀ x ∈ colors, 0 ≤ x ∧ x < (k : Int) := by
  unfold withinBudget
  rw [List.all_eq_true]
  constructor
  · intro h x hx
    have h2 := h x hx
    simp at h2
    exact h2
  · intro h x hx
    simp [h x hx]

lemma all_mem_of_getD (l : List Int) (P : Int → Prop)
    (h : ∀ i, i < l.length → P (l.getD i 0)) : ∀ x ∈ l, P x := by
  intro x hx
  obtain ⟨i, hi, rfl⟩ := List.mem_iff_getElem.mp hx
  rw [← getD_eq_getElem l i hi]
  exact h i hi

/-! Characterisation of the fold computing `max(graph.degree())`. -/

lemma le_foldl_max : ∀ (l : List Nat) (a : Nat), a ≤ l.foldl Nat.max a := by
  intro l
  induction l with
  | nil => intro a; exact Nat.le_refl a
  | cons b t ih =>
    intro a
    exact Nat.le_trans (Nat.le_max_left a b) (ih (Nat.max a b))

lemma foldl_max_ge : ∀ (l : List Nat) (a : Nat), ∀ x ∈ l, x ≤ l.foldl Nat.max a := by
  intro l
  induction l with
  | nil => intro a x hx; simp at hx
  | cons b t ih =>
    intro a x hx
    rcases List.mem_cons.mp hx with rfl | hxt
    · exact Nat.le_trans (Nat.le_max_right a x) (le_foldl_max t (Nat.max a x))
    · exact ih (Nat.max a b) x hxt

lemma foldl_max_mem : ∀ (l : List Nat) (a : Nat),
    l.foldl Nat.max a = a ∨ l.foldl Nat.max a ∈ l := by
  intro l
  induction l with
  | nil => intro a; exact Or.inl rfl
  | cons b t ih =>
    intro a
    rcases ih (Nat.max a b) with heq | hmem
    · rcases Nat.le_total a b with hab | hba
      · right
        have hmax : Nat.max a b = b := Nat.max_eq_right hab
        rw [List.foldl_cons, heq, hmax]
        exact List.mem_cons_self b t
      · left
        have hmax : Nat.max a b = a := Nat.max_eq_left hba
        rw [List.foldl_cons, heq, hmax]
    · right
      rw [List.foldl_cons]
      exact List.mem_cons_of_mem b hmem

/-! Characterisation of the validation scan of `update_matrix`. -/

lemma checkCells_ok_iff (m : List (List Int)) :
    ∀ cells : List (Nat × Nat),
      (checkCells m cells = Except.ok () ↔
        ∀ ij ∈ cells,
          (m.getD ij.1 []).getD ij.2 0 = 0 ∨ (m.getD ij.1 []).getD ij.2 0 = 1) := by
  intro cells
  induction cells with
  | nil => simp [checkCells]
  | cons ij rest ih =>
    by_cases hv : (((m.getD ij.1 []).getD ij.2 0 == 0) ||
        ((m.getD ij.1 []).getD ij.2 0 == 1)) = true
    · have hstep : checkCells m (ij :: rest) = checkCells m rest := by
        simp only [checkCells]
        rw [if_pos hv]
      have hgood : (m.getD ij.1 []).getD ij.2 0 = 0 ∨ (m.getD ij.1 []).getD ij.2 0 = 1 := by
        simpa using hv
      rw [hstep, ih]
      constructor
      · intro h x hx
        rcases List.mem_cons.mp hx with rfl | hxr
        · exact hgood
        · exact h x hxr
      · intro h x hx
        exact h x (List.mem_cons_of_mem ij hx)
    · have hstep : checkCells m (ij :: rest) = Except.error errMsg := by
        simp only [checkCells]
        rw [if_neg hv]
      rw [hstep]
      constructor
      · intro h
        exact Except.noConfusion h
      · intro h
        exfalso
        apply hv
        rcases h ij (List.mem_cons_self ij rest) with h0 | h0 <;> rw [h0] <;> decide

lemma checkCells_not_ok (m : List (List Int)) :
    ∀ cells : List (Nat × Nat), checkCells m cells ≠ Except.ok () →
      checkCells m cells = Except.error errMsg := by
  intro cells
  induction cells with
  | nil => intro h; exact absurd rfl h
  | cons ij rest ih =>
    intro h
    by_cases hv : (((m.getD ij.1 []).getD ij.2 0 == 0) ||
        ((m.getD ij.1 []).getD ij.2 0 == 1)) = true
    · have hstep : checkCells m (ij :: rest) = checkCells m rest := by
        simp only [checkCells]
        rw [if_pos hv]
      rw [hstep] at h ⊢
      exact ih h
    · simp only [checkCells]
      rw [if_neg hv]

lemma forall_allCells (n : Nat) (P : Nat × Nat → Prop) :
    (∀ ij ∈ allCells n, P ij) ↔ ∀ i, i < n → ∀ j, j < n → P (i, j) := by
  unfold allCells
  constructor
  · intro h i hi j hj
    apply h
    rw [List.mem_flatten]
    exact ⟨(List.range n).map (fun j => (i, j)),
      List.mem_map.mpr ⟨i, List.mem_range.mpr hi, rfl⟩,
      List.mem_map.mpr ⟨j, List.mem_range.mpr hj, rfl⟩⟩
  · intro h ij hij
    rw [List.mem_flatten] at hij
    obtain ⟨a, ha, hija⟩ := hij
    obtain ⟨i, hi, rfl⟩ := List.mem_map.mp ha
    obtain ⟨j, hj, rfl⟩ := List.mem_map.mp hija
    exact h i (List.mem_range.mp hi) j (List.mem_range.mp hj)

/-! The benchmark harness threads one array through consecutive trials. -/

lemma measure_states_step_aristas (es : List (Nat × Nat)) (k : Nat) :
    ∀ (n : Nat) (colors : List Int),
      Aristas.measure_states es k (n + 1) colors =
        (Aristas.graph_coloring es k (Aristas.measure_states es k n colors)).2 := by
  intro n
  induction n with
  | zero => intro colors; rfl
  | succ m ih =>
    intro colors
    have h1 : Aristas.measure_states es k (m + 1 + 1) colors =
        Aristas.measure_states es k (m + 1) (Aristas.graph_coloring es k colors).2 := rfl
    rw [h1, ih]
    rfl

lemma measure_states_step_verices (M : List (List Int)) (k : Nat) :
    ∀ (n : Nat) (colors : List Int),
      Verices.measure_states M k (n + 1) colors =
        (Verices.graph_coloring M k (Verices.measure_states M k n colors)).2 := by
  intro n
  induction n with
  | zero => intro colors; rfl
  | succ m ih =>
    intro colors
    have h1 : Verices.measure_states M k (m + 1 + 1) colors =
        Verices.measure_states M k (m + 1) (Verices.graph_coloring M k colors).2 := rfl
    rw [h1, ih]
    rfl

/-! Claim theorems. -/

/-- C1 counterexample: on the one-vertex graph whose matrix has a 1 on the
diagonal, the vertex search succeeds with one colour, yet the literal claim
"for every edge (u, v) of G the colors of u and v differ" fails, because the
self-loop edge (0, 0) relates vertex 0 to itself. -/
theorem counterexample_C1 :
    (Verices.graph_coloring [[1]] 1 (List.replicate 1 (-1))).1 = true ∧
    properVertexColoringAll [[1]]
      (Verices.graph_coloring [[1]] 1 (List.replicate 1 (-1))).2 = false := by
  decide

/-- C1 (amended): starting from an all-unassigned array, a successful vertex
search gives every edge (u, v) with u ≠ v differently coloured endpoints
(self-loops are exempt, as they relate a vertex to itself), and a successful
edge search under a visitation order that is a permutation of the edge indices
gives every two distinct edges sharing an endpoint different colours. -/
theorem C1_amended_search_returns_proper_colorings :
    (∀ (M : List (List Int)) (k : Nat),
      (Verices.graph_coloring M k (List.replicate M.length (-1))).1 = true →
      ∀ i j, i < M.length → j < M.length → Verices.nbr M i j = true → i ≠ j →
        (Verices.graph_coloring M k (List.replicate M.length (-1))).2.getD i 0 ≠
          (Verices.graph_coloring M k (List.replicate M.length (-1))).2.getD j 0) ∧
    (∀ (es : List (Nat × Nat)) (k : Nat) (order : List Nat),
      order.Nodup → (∀ e ∈ order, e < es.length) → (∀ e, e < es.length → e ∈ order) →
      (Aristas.edge_coloring es k (List.replicate es.length (-1)) order).1 = true →
      ∀ e1 e2, e1 < es.length → e2 < es.length → e1 ≠ e2 →
        sharesEndpoint es e1 e2 = true →
        (Aristas.edge_coloring es k (List.replicate es.length (-1)) order).2.getD e1 0 ≠
          (Aristas.edge_coloring es k (List.replicate es.length (-1)) order).2.getD e2 0) := by
  constructor
  · intro M k ht i j hi hj hnbr hij
    have hsound := gcf_sound M k M.length 0 (List.replicate M.length (-1))
      (by omega) (by simp) (fun j2 _ hj2 => getD_replicate _ _ (by simpa using hj2)) ht
    exact hsound.2.2 j (Nat.zero_le j) hj i hi (nbr_symm M i j hnbr) hij
  · intro es k order hnodup hbound hcover ht e1 e2 h1 h2 hne hsh
    have hsound := edge_coloring_sound es k order (List.replicate es.length (-1))
      (by simp) hnodup hbound
      (fun a ha => getD_replicate es.length a (hbound a ha))
      (fun a b ha hb hab hsh2 ha1 ha2 => absurd (getD_replicate es.length a ha) ha1)
      (fun a ha hne2 => absurd (getD_replicate es.length a ha) hne2) ht
    exact hsound.2.2.1 e1 e2 h1 h2 hne hsh
      (hsound.2.1 e1 (hcover e1 h1)) (hsound.2.1 e2 (hcover e2 h2))

/-- C1 witness: concrete successful runs to which the amended theorem
applies; on the path graph 0-1, vertex mode separates the two vertices, and
on the path edges (0,1), (1,2), edge mode separates the two incident edges. -/
theorem witness_C1 :
    (Verices.graph_coloring [[0, 1], [1, 0]] 2 (List.replicate 2 (-1))).2.getD 0 0 ≠
      (Verices.graph_coloring [[0, 1], [1, 0]] 2 (List.replicate 2 (-1))).2.getD 1 0 ∧
    (Aristas.edge_coloring [(0, 1), (1, 2)] 2 (List.replicate 2 (-1)) [0, 1]).2.getD 0 0 ≠
      (Aristas.edge_coloring [(0, 1), (1, 2)] 2 (List.replicate 2 (-1)) [0, 1]).2.getD 1 0 :=
  ⟨C1_amended_search_returns_proper_colorings.1 [[0, 1], [1, 0]] 2 (by decide) 0 1
      (by decide) (by decide) (by decide) (by decide),
   C1_amended_search_returns_proper_colorings.2 [(0, 1), (1, 2)] 2 [0, 1] (by decide)
      (by decide) (by decide) (by decide) 0 1 (by decide) (by decide) (by decide) (by decide)⟩

/-- C2: the greedy edge search of `aristas.py` has no backtracking and is not
complete; on a concrete simple graph with maximum degree 3 and a concrete
visitation order (a permutation of the nine edge indices), it reports failure
with `min_colors_vizing = 4` colours even though a proper edge colouring with
colours below 4 exists, contradicting the claim and the function's own
documented meaning of its `False` result. -/
theorem C2_greedy_edge_search_fails_at_vizing_bound :
    Aristas.min_colors_vizing 10 esC2 = 4 ∧
    esC2.length = 9 ∧
    orderC2.Nodup ∧ (∀ e ∈ orderC2, e < 9) ∧ (∀ e, e < 9 → e ∈ orderC2) ∧
    (Aristas.edge_coloring esC2 4 (List.replicate 9 (-1)) orderC2).1 = false ∧
    properEdgeColoring esC2 goodC2 = true ∧ withinBudget 4 goodC2 = true := by
  decide

/-- C3 counterexample: the edge-mode search has no backtracking, so a failing
run exposes a partially assigned array: on the triangle with two colours it
fails leaving [0, 1, -1], not the all-unassigned state. -/
theorem counterexample_C3 :
    Aristas.edge_coloring [(0, 1), (0, 2), (1, 2)] 2 (List.replicate 3 (-1)) [0, 1, 2] =
      (false, [0, 1, -1]) ∧
    ([0, 1, -1] : List Int) ≠ List.replicate 3 (-1) := by
  decide

/-- C3 (amended): the vertex-mode backtracking search does satisfy the
restoration guarantee: when it fails on an all-unassigned array, the array is
all-unassigned again on return.  (The edge-mode greedy search does not; see
the counterexample.) -/
theorem C3_amended_failure_restores_vertex_array :
    ∀ (M : List (List Int)) (k : Nat),
      (Verices.graph_coloring M k (List.replicate M.length (-1))).1 = false →
      (Verices.graph_coloring M k (List.replicate M.length (-1))).2 =
        List.replicate M.length (-1) := by
  intro M k hf
  exact gcf_restore M k M.length 0 (List.replicate M.length (-1))
    (fun j _ hj => getD_replicate _ _ (by simpa using hj)) hf

/-- C3 witness: the triangle is not 2-colourable in vertex mode; the failing
search returns the array to all-unassigned. -/
theorem witness_C3 :
    (Verices.graph_coloring [[0, 1, 1], [1, 0, 1], [1, 1, 0]] 2
      (List.replicate 3 (-1))).2 = List.replicate 3 (-1) :=
  C3_amended_failure_restores_vertex_array [[0, 1, 1], [1, 0, 1], [1, 1, 0]] 2 (by decide)

/-- C4 counterexample: on the path graph 0-1-2-3-4 with two colours, the
greedy edge search succeeds under the order [0, 1, 2, 3] but fails under the
order [0, 3, 2, 1]; both are permutations of the edge indices, so the
visitation order does change the reported feasibility. -/
theorem counterexample_C4 :
    (Aristas.edge_coloring [(0, 1), (1, 2), (2, 3), (3, 4)] 2 (List.replicate 4 (-1))
      [0, 1, 2, 3]).1 = true ∧
    (Aristas.edge_coloring [(0, 1), (1, 2), (2, 3), (3, 4)] 2 (List.replicate 4 (-1))
      [0, 3, 2, 1]).1 = false ∧
    ([0, 1, 2, 3] : List Nat).Nodup ∧ ([0, 3, 2, 1] : List Nat).Nodup ∧
    (∀ e ∈ ([0, 1, 2, 3] : List Nat), e < 4) ∧ (∀ e, e < 4 → e ∈ ([0, 1, 2, 3] : List Nat)) ∧
    (∀ e ∈ ([0, 3, 2, 1] : List Nat), e < 4) ∧ (∀ e, e < 4 → e ∈ ([0, 3, 2, 1] : List Nat)) := by
  decide

/-- C4 (amended): the visitation order can change whether the greedy edge
search succeeds; what does hold is soundness: success under any permutation
order yields a proper edge colouring within the colour budget, so success
under one order implies the instance is feasible under every complete
search. -/
theorem C4_amended_success_is_sound :
    ∀ (es : List (Nat × Nat)) (k : Nat) (order : List Nat),
      order.Nodup → (∀ e ∈ order, e < es.length) → (∀ e, e < es.length → e ∈ order) →
      (Aristas.edge_coloring es k (List.replicate es.length (-1)) order).1 = true →
      (properEdgeColoring es
          (Aristas.edge_coloring es k (List.replicate es.length (-1)) order).2 = true ∧
       withinBudget k
          (Aristas.edge_coloring es k (List.replicate es.length (-1)) order).2 = true) := by
  intro es k order hnodup hbound hcover ht
  have hsound := edge_coloring_sound es k order (List.replicate es.length (-1))
    (by simp) hnodup hbound
    (fun a ha => getD_replicate es.length a (hbound a ha))
    (fun a b ha hb hab hsh2 ha1 ha2 => absurd (getD_replicate es.length a ha) ha1)
    (fun a ha hne2 => absurd (getD_replicate es.length a ha) hne2) ht
  constructor
  · rw [properEdgeColoring_iff]
    intro e1 e2 h1 h2 hne hsh
    exact hsound.2.2.1 e1 e2 h1 h2 hne hsh
      (hsound.2.1 e1 (hcover e1 h1)) (hsound.2.1 e2 (hcover e2 h2))
  · rw [withinBudget_iff]
    apply all_mem_of_getD
    intro i hi
    have hflen : (Aristas.edge_coloring es k (List.replicate es.length (-1)) order).2.length =
        es.length := by
      rw [edge_coloring_length]
      simp
    rw [hflen] at hi
    obtain ⟨c, hck, hc⟩ := hsound.2.2.2 i hi (hsound.2.1 i (hcover i hi))
    rw [hc]
    constructor
    · omega
    · omega

/-- C4 witness: a concrete successful run to which the amended soundness
theorem applies. -/
theorem witness_C4 :
    properEdgeColoring [(0, 1)]
      (Aristas.edge_coloring [(0, 1)] 3 (List.replicate 1 (-1)) [0]).2 = true ∧
    withinBudget 3 (Aristas.edge_coloring [(0, 1)] 3 (List.replicate 1 (-1)) [0]).2 = true :=
  C4_amended_success_is_sound [(0, 1)] 3 [0] (by decide) (by decide) (by decide) (by decide)

/-- C5 counterexample: the benchmark harness does not re-zero the array
between trials.  On the single-edge graph with the production budget of 10
colours, the first trial leaves [0]; the second trial therefore starts from
[0] rather than from the fresh all-unassigned array, and even produces a
different assignment [1] than the first trial. -/
theorem counterexample_C5 :
    Aristas.measure_states [(0, 1)] 10 1 (List.replicate 1 (-1)) = [0] ∧
    ([0] : List Int) ≠ List.replicate 1 (-1) ∧
    Aristas.measure_states [(0, 1)] 10 2 (List.replicate 1 (-1)) = [1] ∧
    ([1] : List Int) ≠ [0] := by
  decide

/-- C5 (amended): the harness allocates one all-unassigned array before the
trial loop and threads it through all trials without re-zeroing: the array
entering trial n + 1 is exactly the array left by trial n, in both the
edge-mode harness of `aristas.py` and the vertex-mode harness of
`verices.py`; the trial count is the fixed 1000. -/
theorem C5_amended_single_array_threaded_through_trials :
    ∀ (es : List (Nat × Nat)) (M : List (List Int)) (k n : Nat),
      (Aristas.measure_states es k (n + 1) (List.replicate es.length (-1)) =
        (Aristas.graph_coloring es k
          (Aristas.measure_states es k n (List.replicate es.length (-1)))).2) ∧
      (Verices.measure_states M k (n + 1) (List.replicate M.length (-1)) =
        (Verices.graph_coloring M k
          (Verices.measure_states M k n (List.replicate M.length (-1)))).2) ∧
      Aristas.measure_execution_time_states es k =
        Aristas.measure_states es k 1000 (List.replicate es.length (-1)) := by
  intro es M k n
  exact ⟨measure_states_step_aristas es k n _, measure_states_step_verices M k n _, rfl⟩

/-- C6: every colour id in a successful assignment lies in [0, num_colors),
for the vertex search started all-unassigned and for the edge search under a
permutation visitation order started all-unassigned. -/
theorem C6_colors_within_budget :
    (∀ (M : List (List Int)) (k : Nat),
      (Verices.graph_coloring M k (List.replicate M.length (-1))).1 = true →
      ∀ i, i < M.length → ∃ c : Nat, c < k ∧
        (Verices.graph_coloring M k (List.replicate M.length (-1))).2.getD i 0 = (c : Int)) ∧
    (∀ (es : List (Nat × Nat)) (k : Nat) (order : List Nat),
      order.Nodup → (∀ e ∈ order, e < es.length) → (∀ e, e < es.length → e ∈ order) →
      (Aristas.edge_coloring es k (List.replicate es.length (-1)) order).1 = true →
      ∀ e, e < es.length → ∃ c : Nat, c < k ∧
        (Aristas.edge_coloring es k (List.replicate es.length (-1)) order).2.getD e 0 =
          (c : Int)) := by
  constructor
  · intro M k ht i hi
    have hsound := gcf_sound M k M.length 0 (List.replicate M.length (-1))
      (by omega) (by simp) (fun j2 _ hj2 => getD_replicate _ _ (by simpa using hj2)) ht
    exact hsound.2.1 i (Nat.zero_le i) hi
  · intro es k order hnodup hbound hcover ht e he
    have hsound := edge_coloring_sound es k order (List.replicate es.length (-1))
      (by simp) hnodup hbound
      (fun a ha => getD_replicate es.length a (hbound a ha))
      (fun a b ha hb hab hsh2 ha1 ha2 => absurd (getD_replicate es.length a ha) ha1)
      (fun a ha hne2 => absurd (getD_replicate es.length a ha) hne2) ht
    exact hsound.2.2.2 e he (hsound.2.1 e (hcover e he))

/-- C6 witness: concrete successful runs; the triangle with three colours in
vertex mode and a single edge with one colour in edge mode. -/
theorem witness_C6 :
    (∃ c : Nat, c < 3 ∧
      (Verices.graph_coloring [[0, 1, 1], [1, 0, 1], [1, 1, 0]] 3
        (List.replicate 3 (-1))).2.getD 0 0 = (c : Int)) ∧
    (∃ c : Nat, c < 1 ∧
      (Aristas.edge_coloring [(0, 1)] 1 (List.replicate 1 (-1)) [0]).2.getD 0 0 = (c : Int)) :=
  ⟨C6_colors_within_budget.1 [[0, 1, 1], [1, 0, 1], [1, 1, 0]] 3 (by decide) 0 (by decide),
   C6_colors_within_budget.2 [(0, 1)] 1 [0] (by decide) (by decide) (by decide) (by decide)
     0 (by decide)⟩

/-- C7 counterexample: the validation raises the same fixed-message error for
a bad value at cell (0, 1) and for one at cell (1, 0), so the error does not
identify the offending cell; and a non-square one-row grid [[0, 5]] is
accepted because only the 1-by-1 leading square is scanned, so the
validation neither rejects non-square input nor examines every entry. -/
theorem counterexample_C7 :
    update_matrix [[0, 2], [0, 0]] = Except.error errMsg ∧
    update_matrix [[0, 0], [2, 0]] = Except.error errMsg ∧
    update_matrix [[0, 5]] = Except.ok [[0, 5]] :=
  ⟨rfl, rfl, rfl⟩

/-- C7 (amended): the validation scans the n-by-n leading square of the grid,
where n is the number of rows; it accepts the grid unchanged exactly when
every scanned value is 0 or 1, and otherwise fails with the fixed message
"Los valores deben ser 0 o 1.", which does not name the offending cell;
squareness itself is never checked. -/
theorem C7_amended_validation_accepts_iff_entries_01 :
    ∀ m : List (List Int),
      (update_matrix m = Except.ok m ↔
        ∀ i, i < m.length → ∀ j, j < m.length →
          ((m.getD i []).getD j 0 = 0 ∨ (m.getD i []).getD j 0 = 1)) ∧
      (update_matrix m = Except.error errMsg ↔
        ¬ ∀ i, i < m.length → ∀ j, j < m.length →
          ((m.getD i []).getD j 0 = 0 ∨ (m.getD i []).getD j 0 = 1)) := by
  intro m
  have hchar : checkCells m (allCells m.length) = Except.ok () ↔
      ∀ i, i < m.length → ∀ j, j < m.length →
        ((m.getD i []).getD j 0 = 0 ∨ (m.getD i []).getD j 0 = 1) := by
    rw [checkCells_ok_iff]
    exact forall_allCells m.length
      (fun ij => (m.getD ij.1 []).getD ij.2 0 = 0 ∨ (m.getD ij.1 []).getD ij.2 0 = 1)
  constructor
  · cases hc : checkCells m (allCells m.length) with
    | ok u =>
      cases u
      constructor
      · intro _
        exact hchar.mp hc
      · intro _
        unfold update_matrix
        rw [hc]
    | error e =>
      constructor
      · intro hok
        unfold update_matrix at hok
        rw [hc] at hok
        exact Except.noConfusion hok
      · intro hall
        have := hchar.mpr hall
        rw [hc] at this
        exact Except.noConfusion this
  · constructor
    · intro herr hall
      have hok := hchar.mpr hall
      unfold update_matrix at herr
      rw [hok] at herr
      exact Except.noConfusion herr
    · intro hnall
      have hnok : checkCells m (allCells m.length) ≠ Except.ok () := by
        intro h
        exact hnall (hchar.mp h)
      have herr := checkCells_not_ok m (allCells m.length) hnok
      unfold update_matrix
      rw [herr]

/-- C7 witness: the amended characterisation applied to a well-formed and to
a malformed concrete grid. -/
theorem witness_C7 :
    update_matrix [[0]] = Except.ok [[0]] ∧
    update_matrix [[2]] = Except.error errMsg :=
  ⟨(C7_amended_validation_accepts_iff_entries_01 [[0]]).1.mpr (by decide),
   (C7_amended_validation_accepts_iff_entries_01 [[2]]).2.mpr (by decide)⟩

/-- C8: for a graph with at least one vertex, `min_colors_vizing` returns
exactly the maximum degree plus one (the fold over the degree list attains the
maximum), and `update_graph` runs the edge search with
`max(min_colors_vizing, len(palette))` colours, with a 10-label palette. -/
theorem C8_vizing_bound_and_budget :
    ∀ (N : Nat) (es : List (Nat × Nat)), 1 ≤ N →
      ∃ D : Nat, (∀ v, v < N → Aristas.degree es v ≤ D) ∧
        (∃ v, v < N ∧ Aristas.degree es v = D) ∧
        Aristas.min_colors_vizing N es = D + 1 ∧
        Aristas.update_graph_num_colors N es = Nat.max (D + 1) Aristas.palette.length ∧
        Aristas.palette.length = 10 := by
  intro N es hN
  refine ⟨((List.range N).map (Aristas.degree es)).foldl Nat.max 0, ?_, ?_, rfl, rfl, rfl⟩
  · intro v hv
    exact foldl_max_ge _ 0 _ (List.mem_map.mpr ⟨v, List.mem_range.mpr hv, rfl⟩)
  · rcases foldl_max_mem ((List.range N).map (Aristas.degree es)) 0 with heq | hmem
    · have h0 : Aristas.degree es 0 ≤ ((List.range N).map (Aristas.degree es)).foldl Nat.max 0 :=
        foldl_max_ge _ 0 _ (List.mem_map.mpr ⟨0, List.mem_range.mpr (by omega), rfl⟩)
      exact ⟨0, by omega, by omega⟩
    · obtain ⟨v, hv, hdeg⟩ := List.mem_map.mp hmem
      exact ⟨v, List.mem_range.mp hv, hdeg⟩

/-- C8 witness: the characterisation applied to the path graph on three
vertices, whose maximum degree is 2. -/
theorem witness_C8 :
    ∃ D : Nat, (∀ v, v < 3 → Aristas.degree [(0, 1), (1, 2)] v ≤ D) ∧
      (∃ v, v < 3 ∧ Aristas.degree [(0, 1), (1, 2)] v = D) ∧
      Aristas.min_colors_vizing 3 [(0, 1), (1, 2)] = D + 1 ∧
      Aristas.update_graph_num_colors 3 [(0, 1), (1, 2)] =
        Nat.max (D + 1) Aristas.palette.length ∧
      Aristas.palette.length = 10 :=
  C8_vizing_bound_and_budget 3 [(0, 1), (1, 2)] (by decide)

/-- C9 counterexample: both safety checks do compare an item against its own
colour entry.  With a pre-assigned entry, a self-loop alone makes the colour
unsafe in vertex mode (whereas the loop-free graph accepts it), and in edge
mode the single edge (0, 1) blocks its own colour. -/
theorem counterexample_C9 :
    Verices.is_safe [[1]] 0 0 [0] = false ∧
    Verices.is_safe [[0]] 0 0 [0] = true ∧
    Aristas.is_safe_edge [(0, 1)] 0 1 0 [0] = false := by
  decide

/-- C9 (amended): the safety checks do scan the item itself, but whenever the
item's own entry is the sentinel -1 — as it is at every check performed during
a search started all-unassigned — the self-comparison never rejects a colour:
the check is then equivalent to a scan of the other items only, so a
self-loop alone never makes a colour unsafe for an unassigned item. -/
theorem C9_amended_self_comparison_harmless_when_unassigned :
    (∀ (M : List (List Int)) (node : Nat) (c : Nat) (colors : List Int),
      colors.getD node 0 = -1 →
      (Verices.is_safe M node (c : Int) colors = true ↔
        ∀ j, j < M.length → Verices.nbr M node j = true → j ≠ node →
          colors.getD j 0 ≠ (c : Int))) ∧
    (∀ (es : List (Nat × Nat)) (e u v : Nat) (c : Nat) (colors : List Int),
      es.getD e (0, 0) = (u, v) → colors.getD e 0 = -1 →
      (Aristas.is_safe_edge es u v (c : Int) colors = true ↔
        ∀ f, f < es.length → sharesEndpoint es e f = true → f ≠ e →
          colors.getD f 0 ≠ (c : Int))) := by
  constructor
  · intro M node c colors hval
    rw [is_safe_iff]
    constructor
    · intro h j hj hn _
      exact h j hj hn
    · intro h j hj hn
      by_cases hje : j = node
      · rw [hje, hval]
        omega
      · exact h j hj hn hje
  · intro es e u v c colors hq hval
    rw [is_safe_edge_iff es e u v (c : Int) colors hq]
    constructor
    · intro h f hf hs _
      exact h f hf hs
    · intro h f hf hs
      by_cases hfe : f = e
      · rw [hfe, hval]
        omega
      · exact h f hf hs hfe

/-- C9 witness: with the entry unassigned, the self-loop at vertex 0 does not
block colour 0, and the single edge does not block its own first colour. -/
theorem witness_C9 :
    Verices.is_safe [[1]] 0 (((0 : Nat)) : Int) [-1] = true ∧
    Aristas.is_safe_edge [(0, 1)] 0 1 (((0 : Nat)) : Int) [-1] = true :=
  ⟨(C9_amended_self_comparison_harmless_when_unassigned.1 [[1]] 0 0 [-1]
      (by decide)).mpr (by decide),
   (C9_amended_self_comparison_harmless_when_unassigned.2 [(0, 1)] 0 0 1 0 [-1]
      (by decide) (by decide)).mpr (by decide)⟩

/-- C10 counterexample: the implicit claim quantifies over every ordered pair
(i, j) with a 1 entry, which includes the diagonal; on the one-vertex graph
with a self-loop the search succeeds, yet vertex 0 cannot differ from
itself. -/
theorem counterexample_C10 :
    (Verices.graph_coloring [[1]] 1 (List.replicate 1 (-1))).1 = true ∧
    (([[1]] : List (List Int)).getD 0 []).getD 0 0 = 1 ∧
    properPairs [[1]] (Verices.graph_coloring [[1]] 1 (List.replicate 1 (-1))).2 = false := by
  decide

/-- C10 (amended): in directed mode the vertex constraint is enforced
symmetrically for distinct vertices: for every successful run from an
all-unassigned array and every ordered pair (i, j) with matrix entry 1 and
i ≠ j, the colours of i and j differ in both directions, because the safety
check consults neighbours in both directions of each matrix entry. -/
theorem C10_amended_directed_pairs_colored_symmetrically :
    ∀ (M : List (List Int)) (k : Nat),
      (Verices.graph_coloring M k (List.replicate M.length (-1))).1 = true →
      ∀ i j, i < M.length → j < M.length → (M.getD i []).getD j 0 = 1 → i ≠ j →
        ((Verices.graph_coloring M k (List.replicate M.length (-1))).2.getD i 0 ≠
          (Verices.graph_coloring M k (List.replicate M.length (-1))).2.getD j 0 ∧
         (Verices.graph_coloring M k (List.replicate M.length (-1))).2.getD j 0 ≠
          (Verices.graph_coloring M k (List.replicate M.length (-1))).2.getD i 0) := by
  intro M k ht i j hi hj hentry hij
  have hnbr : Verices.nbr M i j = true := by
    unfold Verices.nbr
    rw [hentry]
    simp
  have hsound := gcf_sound M k M.length 0 (List.replicate M.length (-1))
    (by omega) (by simp) (fun j2 _ hj2 => getD_replicate _ _ (by simpa using hj2)) ht
  constructor
  · exact hsound.2.2 j (Nat.zero_le j) hj i hi (nbr_symm M i j hnbr) hij
  · exact hsound.2.2 i (Nat.zero_le i) hi j hj hnbr (fun h => hij h.symm)

/-- C10 witness: the strictly one-directional matrix with a single 1 entry at
(0, 1); the successful run separates vertices 0 and 1 in both directions. -/
theorem witness_C10 :
    (Verices.graph_coloring [[0, 1], [0, 0]] 2 (List.replicate 2 (-1))).2.getD 0 0 ≠
      (Verices.graph_coloring [[0, 1], [0, 0]] 2 (List.replicate 2 (-1))).2.getD 1 0 ∧
    (Verices.graph_coloring [[0, 1], [0, 0]] 2 (List.replicate 2 (-1))).2.getD 1 0 ≠
      (Verices.graph_coloring [[0, 1], [0, 0]] 2 (List.replicate 2 (-1))).2.getD 0 0 :=
  C10_amended_directed_pairs_colored_symmetrically [[0, 1], [0, 0]] 2 (by decide) 0 1
    (by decide) (by decide) (by decide) (by decide)
